import Mathlib

/-!
Shallow embedding of the indicator engine of `src/app.py` (`get_stock_data`).

Floats are modelled as exact rationals extended with the IEEE special values
NaN and ±infinity (`PFloat`), because the pandas pipeline produces NaN from
`rolling(window=9)` before `min_periods` observations exist and from `0/0`,
and produces ±infinity from `x/0` with `x ≠ 0`; the code's `pd.isna` fallback
distinguishes NaN from infinity, so the model must too.
-/

namespace TwStock

/-- A pandas float value: finite rational, NaN, or a signed infinity. -/
inductive PFloat where
  | nan : PFloat
  | posInf : PFloat
  | negInf : PFloat
  | fin : ℚ → PFloat
deriving DecidableEq, Repr

/-- `pd.isna`: true exactly on NaN (infinities are not "na"). -/
def PFloat.isna : PFloat → Bool
  | .nan => true
  | _ => false

/-- Multiplication of a float by a finite rational constant (IEEE rules for
the cases that arise: NaN absorbs, a nonzero constant keeps/flips an
infinity, zero times infinity is NaN). -/
def PFloat.mulQ (c : ℚ) : PFloat → PFloat
  | .nan => .nan
  | .posInf => if 0 < c then .posInf else if c < 0 then .negInf else .nan
  | .negInf => if 0 < c then .negInf else if c < 0 then .posInf else .nan
  | .fin q => .fin (c * q)

/-- IEEE addition on `PFloat`: NaN absorbs, opposite infinities give NaN. -/
def PFloat.add : PFloat → PFloat → PFloat
  | .nan, _ => .nan
  | _, .nan => .nan
  | .posInf, .negInf => .nan
  | .posInf, _ => .posInf
  | .negInf, .posInf => .nan
  | .negInf, _ => .negInf
  | .fin _, .posInf => .posInf
  | .fin _, .negInf => .negInf
  | .fin a, .fin b => .fin (a + b)

/-- IEEE division of two finite values: `0/0` is NaN, `x/0` is a signed
infinity for `x ≠ 0`, otherwise exact division. -/
def PFloat.divQ (a b : ℚ) : PFloat :=
  if b = 0 then
    if a = 0 then .nan else if 0 < a then .posInf else .negInf
  else .fin (a / b)

/-- True exactly on finite values. -/
def PFloat.isFinite : PFloat → Bool
  | .fin _ => true
  | _ => false

/-- One OHLCV bar of the downloaded dataframe: timestamp (the dataframe
index) plus the `Open`, `High`, `Low`, `Close`, `Volume` columns. -/
structure Bar where
  Ts : Int
  Open : ℚ
  High : ℚ
  Low : ℚ
  Close : ℚ
  Volume : ℕ
deriving DecidableEq, Repr

/-- The `Close` column, `df['Close']`. -/
def closes (bars : List Bar) : List ℚ := bars.map Bar.Close

/-- Tail of `ewm(adjust=False).mean()`: given the previous smoothed value,
each new value is `a*x + (1-a)*prev`. -/
def ewmAux (a : ℚ) (prev : ℚ) : List ℚ → List ℚ
  | [] => []
  | x :: rest =>
      ((a * x + (1 - a) * prev)) :: ewmAux a (a * x + (1 - a) * prev) rest

/-- pandas `Series.ewm(span, adjust=False).mean()` with `a = 2/(span+1)`:
the first output equals the first input, then the recursive EMA. -/
def ewm_mean (a : ℚ) : List ℚ → List ℚ
  | [] => []
  | x :: rest => x :: ewmAux a x rest

/-- `exp12 = df['Close'].ewm(span=12, adjust=False).mean()`. -/
def exp12 (bars : List Bar) : List ℚ := ewm_mean (2/13) (closes bars)

/-- `exp26 = df['Close'].ewm(span=26, adjust=False).mean()`. -/
def exp26 (bars : List Bar) : List ℚ := ewm_mean (2/27) (closes bars)

/-- `df['MACD'] = exp12 - exp26`. -/
def macdList (bars : List Bar) : List ℚ :=
  List.zipWith (· - ·) (exp12 bars) (exp26 bars)

/-- `df['Signal'] = df['MACD'].ewm(span=9, adjust=False).mean()`. -/
def signalList (bars : List Bar) : List ℚ := ewm_mean (2/10) (macdList bars)

/-- `df['Hist'] = df['MACD'] - df['Signal']`. -/
def histList (bars : List Bar) : List ℚ :=
  List.zipWith (· - ·) (macdList bars) (signalList bars)

/-- Minimum of a list of rationals (`none` on the empty list). -/
def listMin : List ℚ → Option ℚ
  | [] => none
  | x :: xs => some (xs.foldl min x)

/-- Maximum of a list of rationals (`none` on the empty list). -/
def listMax : List ℚ → Option ℚ
  | [] => none
  | x :: xs => some (xs.foldl max x)

/-- `low_min = df['Low'].rolling(window=9).min()` at row `i`: with the
pandas default `min_periods = window`, rows `i < 8` are NaN (`none`);
otherwise the minimum of the 9 lows at positions `i-8 .. i`. -/
def low_min (bars : List Bar) (i : ℕ) : Option ℚ :=
  if i < 8 then none else listMin (((bars.map Bar.Low).drop (i - 8)).take 9)

/-- `high_max = df['High'].rolling(window=9).max()` at row `i`. -/
def high_max (bars : List Bar) (i : ℕ) : Option ℚ :=
  if i < 8 then none else listMax (((bars.map Bar.High).drop (i - 8)).take 9)

/-- `df['RSV'] = (df['Close'] - low_min) / (high_max - low_min) * 100` at
row `i`; NaN rolling inputs propagate to NaN. -/
def rsvAt (bars : List Bar) (i : ℕ) : PFloat :=
  match low_min bars i, high_max bars i with
  | some lo, some hi =>
      PFloat.mulQ 100 (PFloat.divQ ((closes bars).getD i 0 - lo) (hi - lo))
  | _, _ => PFloat.nan

/-- The whole `df['RSV']` column. -/
def rsvList (bars : List Bar) : List PFloat :=
  (List.range bars.length).map (rsvAt bars)

/-- One iteration of the K/D loop: NaN RSV falls back to 50, then
`k = (2/3)*k_prev + (1/3)*rsv` and `d = (2/3)*d_prev + (1/3)*k`. -/
def kdStep (p : PFloat × PFloat) (r : PFloat) : PFloat × PFloat :=
  (PFloat.add (PFloat.mulQ (2/3) p.1)
      (PFloat.mulQ (1/3) (if r.isna then PFloat.fin 50 else r)),
   PFloat.add (PFloat.mulQ (2/3) p.2)
      (PFloat.mulQ (1/3)
        (PFloat.add (PFloat.mulQ (2/3) p.1)
          (PFloat.mulQ (1/3) (if r.isna then PFloat.fin 50 else r)))))

/-- The loop `for i in range(1, len(df))`, carrying the last `(k, d)`. -/
def kdAux (p : PFloat × PFloat) : List PFloat → List (PFloat × PFloat)
  | [] => []
  | r :: rest => kdStep p r :: kdAux (kdStep p r) rest

/-- `k_values`/`d_values` zipped: the seed `(50, 50)` followed by the loop
over `df['RSV'].iloc[1:]`. -/
def kdPairs (bars : List Bar) : List (PFloat × PFloat) :=
  (PFloat.fin 50, PFloat.fin 50) ::
    kdAux (PFloat.fin 50, PFloat.fin 50) ((rsvList bars).drop 1)

/-- `df['K'] = k_values`. -/
def kList (bars : List Bar) : List PFloat := (kdPairs bars).map Prod.fst

/-- `df['D'] = d_values`. -/
def dList (bars : List Bar) : List PFloat := (kdPairs bars).map Prod.snd

/-- The indicator columns added to the dataframe by `get_stock_data`. -/
structure StockData where
  MACD : List ℚ
  Signal : List ℚ
  Hist : List ℚ
  RSV : List PFloat
  K : List PFloat
  D : List PFloat
deriving DecidableEq, Repr

/-- The indicator computation on a non-empty dataframe. -/
def computeIndicators (bars : List Bar) : StockData :=
  ⟨macdList bars, signalList bars, histList bars,
   rsvList bars, kList bars, dList bars⟩

/-- `get_stock_data`: `None` when the dataframe is empty, otherwise the
dataframe with the six indicator columns (we keep only those columns; the
OHLCV input is passed through unchanged by the code). -/
def get_stock_data (bars : List Bar) : Option StockData :=
  if bars.isEmpty then none else some (computeIndicators bars)

/-! ### Lemmas about the recursive EMA -/

theorem ewmAux_length (a p : ℚ) (xs : List ℚ) :
    (ewmAux a p xs).length = xs.length := by
  induction xs generalizing p with
  | nil => rfl
  | cons x rest ih => simp [ewmAux, ih]

theorem ewm_mean_length (a : ℚ) (xs : List ℚ) :
    (ewm_mean a xs).length = xs.length := by
  cases xs with
  | nil => rfl
  | cons x rest => simp [ewm_mean, ewmAux_length]

theorem ewmAux_getD (a : ℚ) (xs : List ℚ) (p : ℚ) (i : ℕ)
    (h : i < xs.length) :
    (ewmAux a p xs).getD i 0 =
      a * xs.getD i 0 +
        (1 - a) * (if i = 0 then p else (ewmAux a p xs).getD (i - 1) 0) := by
  induction xs generalizing p i with
  | nil => simp at h
  | cons x rest ih =>
      cases i with
      | zero => simp [ewmAux]
      | succ j =>
          have hj : j < rest.length := by simpa using h
          rw [ewmAux]
          simp only [List.getD_cons_succ, Nat.succ_ne_zero, if_false,
            Nat.succ_sub_one]
          rw [ih (a * x + (1 - a) * p) j hj]
          cases j with
          | zero => simp
          | succ k => simp [List.getD_cons_succ]

theorem ewm_mean_getD_zero (a : ℚ) (xs : List ℚ) :
    (ewm_mean a xs).getD 0 0 = xs.getD 0 0 := by
  cases xs <;> simp [ewm_mean]

theorem ewm_mean_recur (a : ℚ) (xs : List ℚ) (i : ℕ) (h1 : 1 ≤ i)
    (h : i < xs.length) :
    (ewm_mean a xs).getD i 0 =
      a * xs.getD i 0 + (1 - a) * (ewm_mean a xs).getD (i - 1) 0 := by
  cases xs with
  | nil => simp at h
  | cons x rest =>
      cases i with
      | zero => exact absurd h1 (by norm_num)
      | succ j =>
          have hj : j < rest.length := by simpa using h
          rw [ewm_mean]
          simp only [List.getD_cons_succ, Nat.succ_sub_one]
          rw [ewmAux_getD a rest x j hj]
          cases j with
          | zero => simp
          | succ k => simp [List.getD_cons_succ]

theorem getD_zipWith_sub (xs ys : List ℚ) (i : ℕ) (h1 : i < xs.length)
    (h2 : i < ys.length) :
    (List.zipWith (· - ·) xs ys).getD i 0 = xs.getD i 0 - ys.getD i 0 := by
  have hz : i < (List.zipWith (· - ·) xs ys).length := by
    rw [List.length_zipWith]
    exact lt_min h1 h2
  rw [List.getD_eq_getElem _ _ hz, List.getD_eq_getElem _ _ h1,
      List.getD_eq_getElem _ _ h2, List.getElem_zipWith]

theorem closes_length (bars : List Bar) : (closes bars).length = bars.length :=
  List.length_map bars Bar.Close

theorem exp12_length (bars : List Bar) : (exp12 bars).length = bars.length := by
  rw [exp12, ewm_mean_length, closes_length]

theorem exp26_length (bars : List Bar) : (exp26 bars).length = bars.length := by
  rw [exp26, ewm_mean_length, closes_length]

theorem macdList_length (bars : List Bar) :
    (macdList bars).length = bars.length := by
  rw [macdList, List.length_zipWith, exp12_length, exp26_length, min_self]

theorem signalList_length (bars : List Bar) :
    (signalList bars).length = bars.length := by
  rw [signalList, ewm_mean_length, macdList_length]

theorem histList_length (bars : List Bar) :
    (histList bars).length = bars.length := by
  rw [histList, List.length_zipWith, macdList_length, signalList_length,
    min_self]

/-- The full-history recursive-EMA description of the MACD output: seeds
equal to the first close, the pointwise recurrences with the claimed
constants, the defining differences, and full (untruncated) lengths. -/
def MacdEmaProp (bars : List Bar) : Prop :=
    (exp12 bars).getD 0 0 = (closes bars).getD 0 0 ∧
    (exp26 bars).getD 0 0 = (closes bars).getD 0 0 ∧
    (∀ i, 1 ≤ i → i < bars.length →
      (exp12 bars).getD i 0 =
        2/13 * (closes bars).getD i 0 + 11/13 * (exp12 bars).getD (i-1) 0 ∧
      (exp26 bars).getD i 0 =
        2/27 * (closes bars).getD i 0 + 25/27 * (exp26 bars).getD (i-1) 0) ∧
    (∀ i, i < bars.length →
      (computeIndicators bars).MACD.getD i 0 =
        (exp12 bars).getD i 0 - (exp26 bars).getD i 0) ∧
    (computeIndicators bars).Signal.getD 0 0 =
      (computeIndicators bars).MACD.getD 0 0 ∧
    (∀ i, 1 ≤ i → i < bars.length →
      (computeIndicators bars).Signal.getD i 0 =
        2/10 * (computeIndicators bars).MACD.getD i 0 +
          8/10 * (computeIndicators bars).Signal.getD (i-1) 0) ∧
    (∀ i, i < bars.length →
      (computeIndicators bars).Hist.getD i 0 =
        (computeIndicators bars).MACD.getD i 0 -
          (computeIndicators bars).Signal.getD i 0) ∧
    (computeIndicators bars).MACD.length = bars.length ∧
    (computeIndicators bars).Signal.length = bars.length ∧
    (computeIndicators bars).Hist.length = bars.length

/-- C1: for every non-empty series, the MACD output is the full-history
recursive EMA seeded at the first sample: `ema12[0] = close[0]` and
`ema12[i] = (2/13)·close[i] + (11/13)·ema12[i-1]` (analogously `ema26`
with `2/27`), `macd[i] = ema12[i] - ema26[i]`, `signal[0] = macd[0]` and
`signal[i] = (2/10)·macd[i] + (8/10)·signal[i-1]`, and
`hist[i] = macd[i] - signal[i]`; the output columns have the full input
length (no warm-up truncation) and the seed is the first close (no
simple-moving-average seed). -/
theorem macd_full_history_ema (bars : List Bar) (_hne : bars ≠ []) :
    MacdEmaProp bars := by
  unfold MacdEmaProp
  refine ⟨ewm_mean_getD_zero _ _, ewm_mean_getD_zero _ _, ?_, ?_, ?_, ?_, ?_,
    macdList_length bars, signalList_length bars, histList_length bars⟩
  · intro i h1 hi
    constructor
    · have := ewm_mean_recur (2/13) (closes bars) i h1
        (by rw [closes_length]; exact hi)
      rw [exp12, this]
      norm_num
    · have := ewm_mean_recur (2/27) (closes bars) i h1
        (by rw [closes_length]; exact hi)
      rw [exp26, this]
      norm_num
  · intro i hi
    exact getD_zipWith_sub _ _ i (by rw [exp12_length]; exact hi)
      (by rw [exp26_length]; exact hi)
  · exact ewm_mean_getD_zero _ _
  · intro i h1 hi
    have h8 : (1 - 2/10 : ℚ) = 8/10 := by norm_num
    have := ewm_mean_recur (2/10) (macdList bars) i h1
      (by rw [macdList_length]; exact hi)
    rw [h8] at this
    exact this
  · intro i hi
    exact getD_zipWith_sub _ _ i (by rw [macdList_length]; exact hi)
      (by rw [signalList_length]; exact hi)

/-- C1 witness: the hypothesis of `macd_full_history_ema` is satisfiable,
instantiated on a concrete two-bar series. -/
theorem macd_full_history_ema_witness :
    ([⟨0, 100, 101, 99, 100, 10⟩, ⟨1, 101, 102, 100, 101, 12⟩] : List Bar) ≠ [] ∧
    MacdEmaProp [⟨0, 100, 101, 99, 100, 10⟩, ⟨1, 101, 102, 100, 101, 12⟩] :=
  ⟨by decide, macd_full_history_ema _ (by decide)⟩

/-! ### Lemmas about the K/D recursion -/

theorem kdAux_length (p : PFloat × PFloat) (rs : List PFloat) :
    (kdAux p rs).length = rs.length := by
  induction rs generalizing p with
  | nil => rfl
  | cons r rest ih => simp [kdAux, ih]

theorem rsvList_length (bars : List Bar) :
    (rsvList bars).length = bars.length := by
  rw [rsvList, List.length_map, List.length_range]

theorem kdPairs_length (bars : List Bar) (hne : bars ≠ []) :
    (kdPairs bars).length = bars.length := by
  have h1 : 1 ≤ bars.length := List.length_pos.mpr hne
  rw [kdPairs]
  simp only [List.length_cons, kdAux_length, List.length_drop, rsvList_length]
  omega

theorem kList_length (bars : List Bar) (hne : bars ≠ []) :
    (kList bars).length = bars.length := by
  rw [kList, List.length_map, kdPairs_length bars hne]

theorem dList_length (bars : List Bar) (hne : bars ≠ []) :
    (dList bars).length = bars.length := by
  rw [dList, List.length_map, kdPairs_length bars hne]

theorem rsvList_getElem? (bars : List Bar) (k : ℕ) (h : k < bars.length) :
    (rsvList bars)[k]? = some (rsvAt bars k) := by
  have hl : k < (rsvList bars).length := by rw [rsvList_length]; exact h
  rw [List.getElem?_eq_getElem hl]
  congr 1
  simp only [rsvList, List.getElem_map]
  congr 1
  exact List.getElem_range _ _

theorem kdAux_getD (rs : List PFloat) (p : PFloat × PFloat) (i : ℕ)
    (h : i < rs.length) :
    (kdAux p rs).getD i (PFloat.nan, PFloat.nan) =
      kdStep
        (if i = 0 then p
         else (kdAux p rs).getD (i - 1) (PFloat.nan, PFloat.nan))
        (rs.getD i PFloat.nan) := by
  induction rs generalizing p i with
  | nil => simp at h
  | cons r rest ih =>
      cases i with
      | zero => simp [kdAux]
      | succ j =>
          have hj : j < rest.length := by simpa using h
          rw [kdAux]
          simp only [List.getD_cons_succ, Nat.succ_ne_zero, if_false,
            Nat.succ_sub_one]
          rw [ih (kdStep p r) j hj]
          cases j with
          | zero => simp
          | succ k => simp [List.getD_cons_succ]

theorem kdPairs_getD_succ (bars : List Bar) (i : ℕ) (h1 : 1 ≤ i)
    (h : i < bars.length) :
    (kdPairs bars).getD i (PFloat.nan, PFloat.nan) =
      kdStep ((kdPairs bars).getD (i - 1) (PFloat.nan, PFloat.nan))
        (rsvAt bars i) := by
  obtain ⟨j, rfl⟩ : ∃ j, i = j + 1 := ⟨i - 1, by omega⟩
  have hj : j < ((rsvList bars).drop 1).length := by
    rw [List.length_drop, rsvList_length]
    omega
  have hr : ((rsvList bars).drop 1).getD j PFloat.nan = rsvAt bars (j + 1) := by
    rw [List.getD_eq_getElem?_getD, List.getElem?_drop,
      rsvList_getElem? bars (1 + j) (by omega)]
    simp [Nat.add_comm]
  rw [kdPairs]
  simp only [List.getD_cons_succ, Nat.succ_sub_one]
  rw [kdAux_getD _ _ j hj, hr]
  cases j with
  | zero => simp
  | succ k => simp [List.getD_cons_succ]

theorem kList_getD (bars : List Bar) (i : ℕ)
    (h : i < (kdPairs bars).length) :
    (kList bars).getD i PFloat.nan =
      ((kdPairs bars).getD i (PFloat.nan, PFloat.nan)).1 := by
  have hm : i < ((kdPairs bars).map Prod.fst).length := by
    rw [List.length_map]; exact h
  show ((kdPairs bars).map Prod.fst).getD i PFloat.nan = _
  rw [List.getD_eq_getElem _ _ hm, List.getD_eq_getElem _ _ h,
    List.getElem_map]

theorem dList_getD (bars : List Bar) (i : ℕ)
    (h : i < (kdPairs bars).length) :
    (dList bars).getD i PFloat.nan =
      ((kdPairs bars).getD i (PFloat.nan, PFloat.nan)).2 := by
  have hm : i < ((kdPairs bars).map Prod.snd).length := by
    rw [List.length_map]; exact h
  show ((kdPairs bars).map Prod.snd).getD i PFloat.nan = _
  rw [List.getD_eq_getElem _ _ hm, List.getD_eq_getElem _ _ h,
    List.getElem_map]

/-- The fixed-seed K/D recursion of the claim: `K[0] = D[0] = 50`
independently of the first bar's RSV, and for `i ≥ 1` the smoothing
recurrences with an undefined (NaN) RSV replaced by 50. -/
def KdRecursionProp (bars : List Bar) : Prop :=
  (computeIndicators bars).K.getD 0 PFloat.nan = PFloat.fin 50 ∧
  (computeIndicators bars).D.getD 0 PFloat.nan = PFloat.fin 50 ∧
  ∀ i, 1 ≤ i → i < bars.length →
    (computeIndicators bars).K.getD i PFloat.nan =
      PFloat.add
        (PFloat.mulQ (2/3)
          ((computeIndicators bars).K.getD (i - 1) PFloat.nan))
        (PFloat.mulQ (1/3)
          (if (rsvAt bars i).isna then PFloat.fin 50 else rsvAt bars i)) ∧
    (computeIndicators bars).D.getD i PFloat.nan =
      PFloat.add
        (PFloat.mulQ (2/3)
          ((computeIndicators bars).D.getD (i - 1) PFloat.nan))
        (PFloat.mulQ (1/3) ((computeIndicators bars).K.getD i PFloat.nan))

/-- C2: for every non-empty series the stochastic output starts from the
fixed seed `K[0] = D[0] = 50` regardless of the first bar's RSV, and for
every `i ≥ 1`, `K[i] = (2/3)·K[i-1] + (1/3)·rsv_i` and
`D[i] = (2/3)·D[i-1] + (1/3)·K[i]`, where `rsv_i` is `RSV[i]` when defined
and 50 otherwise. -/
theorem kd_recursion_fixed_seed (bars : List Bar) (hne : bars ≠ []) :
    KdRecursionProp bars := by
  have hlen := kdPairs_length bars hne
  refine ⟨rfl, rfl, ?_⟩
  intro i h1 hi
  have hi' : i < (kdPairs bars).length := by rw [hlen]; exact hi
  have hi1' : i - 1 < (kdPairs bars).length := by rw [hlen]; omega
  have hrec := kdPairs_getD_succ bars i h1 hi
  constructor
  · show (kList bars).getD i PFloat.nan = _
    rw [kList_getD bars i hi', hrec]
    show _ = PFloat.add (PFloat.mulQ (2/3) ((kList bars).getD (i - 1) PFloat.nan)) _
    rw [kList_getD bars (i - 1) hi1']
    rfl
  · show (dList bars).getD i PFloat.nan = _
    rw [dList_getD bars i hi', hrec]
    show _ = PFloat.add (PFloat.mulQ (2/3) ((dList bars).getD (i - 1) PFloat.nan))
      (PFloat.mulQ (1/3) ((kList bars).getD i PFloat.nan))
    rw [dList_getD bars (i - 1) hi1', kList_getD bars i hi', hrec]
    rfl

/-- C2 witness: `kd_recursion_fixed_seed` instantiated on a concrete
two-bar series. -/
theorem kd_recursion_fixed_seed_witness :
    ([⟨0, 10, 11, 9, 10, 1⟩, ⟨1, 10, 12, 9, 11, 1⟩] : List Bar) ≠ [] ∧
    KdRecursionProp [⟨0, 10, 11, 9, 10, 1⟩, ⟨1, 10, 12, 9, 11, 1⟩] :=
  ⟨by decide, kd_recursion_fixed_seed _ (by decide)⟩

/-! ### Lemmas about the rolling 9-bar window -/

theorem foldl_min_le_init (xs : List ℚ) (a : ℚ) : xs.foldl min a ≤ a := by
  induction xs generalizing a with
  | nil => exact le_refl a
  | cons x rest ih => exact le_trans (ih (min a x)) (min_le_left a x)

theorem foldl_min_le_mem (xs : List ℚ) (a x : ℚ) (hx : x ∈ xs) :
    xs.foldl min a ≤ x := by
  induction xs generalizing a with
  | nil => simp at hx
  | cons y rest ih =>
      rcases List.mem_cons.mp hx with h | h
      · subst h
        exact le_trans (foldl_min_le_init rest (min a x)) (min_le_right a x)
      · exact ih (min a y) h

theorem foldl_min_mem (xs : List ℚ) (a : ℚ) :
    xs.foldl min a = a ∨ xs.foldl min a ∈ xs := by
  induction xs generalizing a with
  | nil => left; rfl
  | cons x rest ih =>
      rcases ih (min a x) with h | h
      · rcases min_choice a x with hc | hc
        · left; rw [List.foldl_cons, h, hc]
        · right; rw [List.foldl_cons, h, hc]; exact List.mem_cons_self x rest
      · right
        rw [List.foldl_cons]
        exact List.mem_cons_of_mem x h

theorem init_le_foldl_max (xs : List ℚ) (a : ℚ) : a ≤ xs.foldl max a := by
  induction xs generalizing a with
  | nil => exact le_refl a
  | cons x rest ih => exact le_trans (le_max_left a x) (ih (max a x))

theorem mem_le_foldl_max (xs : List ℚ) (a x : ℚ) (hx : x ∈ xs) :
    x ≤ xs.foldl max a := by
  induction xs generalizing a with
  | nil => simp at hx
  | cons y rest ih =>
      rcases List.mem_cons.mp hx with h | h
      · subst h
        exact le_trans (le_max_right a x) (init_le_foldl_max rest (max a x))
      · exact ih (max a y) h

theorem foldl_max_mem (xs : List ℚ) (a : ℚ) :
    xs.foldl max a = a ∨ xs.foldl max a ∈ xs := by
  induction xs generalizing a with
  | nil => left; rfl
  | cons x rest ih =>
      rcases ih (max a x) with h | h
      · rcases max_choice a x with hc | hc
        · left; rw [List.foldl_cons, h, hc]
        · right; rw [List.foldl_cons, h, hc]; exact List.mem_cons_self x rest
      · right
        rw [List.foldl_cons]
        exact List.mem_cons_of_mem x h

theorem listMin_le (xs : List ℚ) (m x : ℚ) (hm : listMin xs = some m)
    (hx : x ∈ xs) : m ≤ x := by
  cases xs with
  | nil => simp [listMin] at hm
  | cons y ys =>
      rw [listMin] at hm
      rcases List.mem_cons.mp hx with h | h
      · subst h
        rw [← Option.some.inj hm]
        exact foldl_min_le_init ys x
      · rw [← Option.some.inj hm]
        exact foldl_min_le_mem ys y x h

theorem listMin_mem (xs : List ℚ) (m : ℚ) (hm : listMin xs = some m) :
    m ∈ xs := by
  cases xs with
  | nil => simp [listMin] at hm
  | cons y ys =>
      rw [listMin] at hm
      rw [← Option.some.inj hm]
      rcases foldl_min_mem ys y with h | h
      · rw [h]; exact List.mem_cons_self y ys
      · exact List.mem_cons_of_mem y h

theorem listMin_isSome (xs : List ℚ) (h : xs ≠ []) :
    ∃ m, listMin xs = some m := by
  cases xs with
  | nil => exact absurd rfl h
  | cons y ys => exact ⟨ys.foldl min y, rfl⟩

theorem le_listMax (xs : List ℚ) (m x : ℚ) (hm : listMax xs = some m)
    (hx : x ∈ xs) : x ≤ m := by
  cases xs with
  | nil => simp [listMax] at hm
  | cons y ys =>
      rw [listMax] at hm
      rcases List.mem_cons.mp hx with h | h
      · subst h
        rw [← Option.some.inj hm]
        exact init_le_foldl_max ys x
      · rw [← Option.some.inj hm]
        exact mem_le_foldl_max ys y x h

theorem listMax_mem (xs : List ℚ) (m : ℚ) (hm : listMax xs = some m) :
    m ∈ xs := by
  cases xs with
  | nil => simp [listMax] at hm
  | cons y ys =>
      rw [listMax] at hm
      rw [← Option.some.inj hm]
      rcases foldl_max_mem ys y with h | h
      · rw [h]; exact List.mem_cons_self y ys
      · exact List.mem_cons_of_mem y h

theorem listMax_isSome (xs : List ℚ) (h : xs ≠ []) :
    ∃ m, listMax xs = some m := by
  cases xs with
  | nil => exact absurd rfl h
  | cons y ys => exact ⟨ys.foldl max y, rfl⟩

theorem window_getElem? (xs : List ℚ) (m t : ℕ) (ht : t < 9) :
    ((xs.drop m).take 9)[t]? = xs[m + t]? := by
  rw [List.getElem?_take, if_pos ht, List.getElem?_drop]

theorem mem_take_drop_iff (xs : List ℚ) (m : ℕ) (x : ℚ) :
    x ∈ (xs.drop m).take 9 ↔ ∃ t, t < 9 ∧ xs[m + t]? = some x := by
  constructor
  · intro hx
    obtain ⟨t, ht, hxt⟩ := List.mem_iff_getElem.mp hx
    have ht9 : t < 9 := by
      rw [List.length_take, List.length_drop] at ht
      omega
    refine ⟨t, ht9, ?_⟩
    rw [← window_getElem? xs m t ht9, List.getElem?_eq_getElem ht, hxt]
  · rintro ⟨t, ht9, hxt⟩
    have hw : ((xs.drop m).take 9)[t]? = some x := by
      rw [window_getElem? xs m t ht9]
      exact hxt
    exact List.getElem?_mem hw

theorem getD_mem_window (xs : List ℚ) (i j : ℕ) (h8 : 8 ≤ i) (hj1 : i - 8 ≤ j)
    (hj2 : j ≤ i) (hjn : j < xs.length) :
    xs.getD j 0 ∈ (xs.drop (i - 8)).take 9 := by
  rw [mem_take_drop_iff]
  refine ⟨j - (i - 8), by omega, ?_⟩
  have hjj : i - 8 + (j - (i - 8)) = j := by omega
  rw [hjj, List.getElem?_eq_getElem hjn, List.getD_eq_getElem _ _ hjn]

theorem mem_window_getD (xs : List ℚ) (i : ℕ) (h8 : 8 ≤ i) (x : ℚ)
    (hx : x ∈ (xs.drop (i - 8)).take 9) :
    ∃ j, i - 8 ≤ j ∧ j ≤ i ∧ j < xs.length ∧ xs.getD j 0 = x := by
  obtain ⟨t, ht9, hxt⟩ := (mem_take_drop_iff xs (i - 8) x).mp hx
  have hlt : i - 8 + t < xs.length := by
    by_contra hge
    rw [List.getElem?_eq_none (by omega)] at hxt
    exact Option.noConfusion hxt
  refine ⟨i - 8 + t, by omega, by omega, hlt, ?_⟩
  rw [List.getD_eq_getElem _ _ hlt]
  rw [List.getElem?_eq_getElem hlt] at hxt
  exact Option.some.inj hxt

theorem window_nonempty (xs : List ℚ) (i : ℕ) (h : i < xs.length) :
    (xs.drop (i - 8)).take 9 ≠ [] := by
  have : 0 < ((xs.drop (i - 8)).take 9).length := by
    rw [List.length_take, List.length_drop]
    omega
  exact List.length_pos.mp this

theorem rsvAt_lt8 (bars : List Bar) (i : ℕ) (h : i < 8) :
    rsvAt bars i = PFloat.nan := by
  unfold rsvAt
  rw [low_min, if_pos h]

theorem rsvAt_eq (bars : List Bar) (i : ℕ) (lo hi : ℚ)
    (hlo : low_min bars i = some lo) (hhi : high_max bars i = some hi) :
    rsvAt bars i =
      PFloat.mulQ 100
        (PFloat.divQ ((closes bars).getD i 0 - lo) (hi - lo)) := by
  unfold rsvAt
  rw [hlo, hhi]

/-- For `8 ≤ i < n` the rolling extrema are attained extrema of the full
9-bar trailing window. -/
theorem window_extrema (bars : List Bar) (i : ℕ) (h8 : 8 ≤ i)
    (hn : i < bars.length) :
    ∃ lo hi, low_min bars i = some lo ∧ high_max bars i = some hi ∧
      (∀ j, i - 8 ≤ j → j ≤ i →
        lo ≤ (bars.map Bar.Low).getD j 0 ∧
        (bars.map Bar.High).getD j 0 ≤ hi) ∧
      (∃ j, i - 8 ≤ j ∧ j ≤ i ∧ (bars.map Bar.Low).getD j 0 = lo) ∧
      (∃ j, i - 8 ≤ j ∧ j ≤ i ∧ (bars.map Bar.High).getD j 0 = hi) := by
  have hnlt : ¬ i < 8 := by omega
  have hlow : i < (bars.map Bar.Low).length := by
    rw [List.length_map]; exact hn
  have hhigh : i < (bars.map Bar.High).length := by
    rw [List.length_map]; exact hn
  obtain ⟨lo, hlo⟩ := listMin_isSome _ (window_nonempty _ i hlow)
  obtain ⟨hi', hhi⟩ := listMax_isSome _ (window_nonempty _ i hhigh)
  have hlomin : low_min bars i = some lo := by
    rw [low_min, if_neg hnlt]; exact hlo
  have hhimax : high_max bars i = some hi' := by
    rw [high_max, if_neg hnlt]; exact hhi
  refine ⟨lo, hi', hlomin, hhimax, ?_, ?_, ?_⟩
  · intro j hj1 hj2
    have hjn : j < (bars.map Bar.Low).length := by
      rw [List.length_map]; omega
    have hjn' : j < (bars.map Bar.High).length := by
      rw [List.length_map]; omega
    exact ⟨listMin_le _ lo _ hlo (getD_mem_window _ i j h8 hj1 hj2 hjn),
           le_listMax _ hi' _ hhi (getD_mem_window _ i j h8 hj1 hj2 hjn')⟩
  · obtain ⟨j, hj1, hj2, hjn, hjx⟩ :=
      mem_window_getD _ i h8 lo (listMin_mem _ lo hlo)
    exact ⟨j, hj1, hj2, hjx⟩
  · obtain ⟨j, hj1, hj2, hjn, hjx⟩ :=
      mem_window_getD _ i h8 hi' (listMax_mem _ hi' hhi)
    exact ⟨j, hj1, hj2, hjx⟩

/-- C3 counterexample: on a concrete two-bar series, index 1 (< 8) has an
undefined (NaN) rolling minimum/maximum and an undefined RSV, although the
partial window `[max(0,1-8), 1]` of the claim has the nonzero range
`40 - 10` and would give `RSV[1] = (30-10)/(40-10)*100`; the early indices
ARE left undefined, contradicting the claimed shrinking window. -/
theorem rolling_window_partial_counterexample :
    low_min [⟨0, 20, 30, 10, 20, 0⟩, ⟨1, 30, 40, 20, 30, 0⟩] 1 = none ∧
    high_max [⟨0, 20, 30, 10, 20, 0⟩, ⟨1, 30, 40, 20, 30, 0⟩] 1 = none ∧
    rsvAt [⟨0, 20, 30, 10, 20, 0⟩, ⟨1, 30, 40, 20, 30, 0⟩] 1 = PFloat.nan ∧
    PFloat.nan ≠ PFloat.fin ((30 - 10) / (40 - 10) * 100) := by
  refine ⟨rfl, rfl, rfl, ?_⟩
  decide

/-- The corrected rolling-window description: indices `i < 8` are
undefined (NaN); for `8 ≤ i < n`, `low_min[i]`/`high_max[i]` are the
minimum low / maximum high over the full trailing window `j ∈ [i-8, i]`,
and `RSV[i]` is the defined ratio whenever that window's range is
nonzero. -/
def RollingWindowProp (bars : List Bar) : Prop :=
  (∀ i, i < 8 → low_min bars i = none ∧ high_max bars i = none ∧
      rsvAt bars i = PFloat.nan) ∧
  ∀ i, 8 ≤ i → i < bars.length →
    ∃ lo hi, low_min bars i = some lo ∧ high_max bars i = some hi ∧
      (∀ j, i - 8 ≤ j → j ≤ i →
        lo ≤ (bars.map Bar.Low).getD j 0 ∧
        (bars.map Bar.High).getD j 0 ≤ hi) ∧
      (∃ j, i - 8 ≤ j ∧ j ≤ i ∧ (bars.map Bar.Low).getD j 0 = lo) ∧
      (∃ j, i - 8 ≤ j ∧ j ≤ i ∧ (bars.map Bar.High).getD j 0 = hi) ∧
      (hi - lo ≠ 0 →
        rsvAt bars i =
          PFloat.fin (((closes bars).getD i 0 - lo) / (hi - lo) * 100))

/-- C3 (amended): the rolling extrema use the pandas default
`min_periods = 9`, so indices `i < 8` are undefined (NaN, falling back to
50 later); only for `i ≥ 8` is `low_min[i]`/`high_max[i]` the extremum of
the full 9-bar trailing window and `RSV[i]` the defined ratio whenever the
window's range is nonzero. -/
theorem rolling_window_full_only (bars : List Bar) :
    RollingWindowProp bars := by
  constructor
  · intro i hi8
    refine ⟨?_, ?_, rsvAt_lt8 bars i hi8⟩
    · rw [low_min, if_pos hi8]
    · rw [high_max, if_pos hi8]
  · intro i h8 hn
    obtain ⟨lo, hi', hlomin, hhimax, hb, hw1, hw2⟩ :=
      window_extrema bars i h8 hn
    refine ⟨lo, hi', hlomin, hhimax, hb, hw1, hw2, ?_⟩
    intro hne0
    have hdiv : PFloat.divQ ((closes bars).getD i 0 - lo) (hi' - lo) =
        PFloat.fin (((closes bars).getD i 0 - lo) / (hi' - lo)) := by
      unfold PFloat.divQ
      rw [if_neg hne0]
    rw [rsvAt_eq bars i lo hi' hlomin hhimax, hdiv]
    show PFloat.fin (100 * (((closes bars).getD i 0 - lo) / (hi' - lo))) = _
    rw [mul_comm]

/-! ### Range invariants of RSV and the K/D chain -/

/-- Finite and within the stochastic band `[0, 100]`. -/
def PFloat.inRange (x : PFloat) : Prop :=
  ∃ q, x = PFloat.fin q ∧ 0 ≤ q ∧ q ≤ 100

/-- Per-bar sanity of market data: the close lies between the low and the
high. (Finite positivity is built into the `ℚ`-valued model.) -/
def ValidBars (bars : List Bar) : Prop :=
  ∀ b ∈ bars, b.Low ≤ b.Close ∧ b.Close ≤ b.High

theorem getD_map_bar (f : Bar → ℚ) (bars : List Bar) (i : ℕ)
    (h : i < bars.length) :
    (bars.map f).getD i 0 = f (bars.getD i ⟨0, 0, 0, 0, 0, 0⟩) := by
  rw [List.getD_eq_getElem _ _ (by rw [List.length_map]; exact h),
    List.getD_eq_getElem _ _ h, List.getElem_map]

theorem getD_bar_mem (bars : List Bar) (i : ℕ) (h : i < bars.length) :
    bars.getD i ⟨0, 0, 0, 0, 0, 0⟩ ∈ bars := by
  rw [List.getD_eq_getElem _ _ h]
  exact List.getElem_mem h

/-- On valid bars, each RSV is either NaN (and the zero-range condition
can only produce NaN), or a finite value in `[0, 100]`. -/
theorem rsv_trichotomy (bars : List Bar) (hv : ValidBars bars) (i : ℕ)
    (hn : i < bars.length) :
    (high_max bars i = low_min bars i → rsvAt bars i = PFloat.nan) ∧
    (rsvAt bars i = PFloat.nan ∨ (rsvAt bars i).inRange) := by
  rcases Nat.lt_or_ge i 8 with h8 | h8
  · exact ⟨fun _ => rsvAt_lt8 bars i h8, Or.inl (rsvAt_lt8 bars i h8)⟩
  obtain ⟨lo, hi', hlo, hhi, hbounds, _, _⟩ := window_extrema bars i h8 hn
  have hself := hbounds i (by omega) (le_refl i)
  have hlowb := getD_map_bar Bar.Low bars i hn
  have hhighb := getD_map_bar Bar.High bars i hn
  have hcloseb : (closes bars).getD i 0 =
      (bars.getD i ⟨0, 0, 0, 0, 0, 0⟩).Close := getD_map_bar Bar.Close bars i hn
  obtain ⟨hlc, hch⟩ := hv _ (getD_bar_mem bars i hn)
  have h1 : lo ≤ (bars.getD i ⟨0, 0, 0, 0, 0, 0⟩).Close := by
    rw [hlowb] at hself
    exact le_trans hself.1 hlc
  have h2 : (bars.getD i ⟨0, 0, 0, 0, 0, 0⟩).Close ≤ hi' := by
    rw [hhighb] at hself
    exact le_trans hch hself.2
  by_cases hz : hi' = lo
  · have hnanp : rsvAt bars i = PFloat.nan := by
      rw [rsvAt_eq bars i lo hi' hlo hhi, hcloseb]
      have hzz : hi' - lo = 0 := by rw [hz]; ring
      have hceq : (bars.getD i ⟨0, 0, 0, 0, 0, 0⟩).Close - lo = 0 := by
        rw [hz] at h2
        linarith
      unfold PFloat.divQ
      rw [if_pos hzz, if_pos hceq]
      rfl
    exact ⟨fun _ => hnanp, Or.inl hnanp⟩
  · constructor
    · intro hmm
      rw [hlo, hhi] at hmm
      exact absurd (Option.some.inj hmm) hz
    · right
      have hlt : lo < hi' :=
        lt_of_le_of_ne (le_trans h1 h2) (fun he => hz he.symm)
      have hpos : 0 < hi' - lo := by linarith
      have hzz : ¬ hi' - lo = 0 := by linarith
      rw [rsvAt_eq bars i lo hi' hlo hhi, hcloseb]
      unfold PFloat.divQ
      rw [if_neg hzz]
      refine ⟨100 * (((bars.getD i ⟨0, 0, 0, 0, 0, 0⟩).Close - lo) / (hi' - lo)),
        rfl, ?_, ?_⟩
      · exact mul_nonneg (by norm_num) (div_nonneg (by linarith) (by linarith))
      · have hr1 : ((bars.getD i ⟨0, 0, 0, 0, 0, 0⟩).Close - lo) / (hi' - lo) ≤ 1 := by
          rw [div_le_one hpos]
          linarith
        linarith

theorem kdStep_inRange (p : PFloat × PFloat) (r : PFloat)
    (hk : p.1.inRange) (hd : p.2.inRange)
    (hr : r = PFloat.nan ∨ r.inRange) :
    (kdStep p r).1.inRange ∧ (kdStep p r).2.inRange := by
  obtain ⟨kq, hkq, hk0, hk100⟩ := hk
  obtain ⟨dq, hdq, hd0, hd100⟩ := hd
  obtain ⟨rq, hrq, hr0, hr100⟩ :
      ∃ q, (if r.isna then PFloat.fin 50 else r) = PFloat.fin q ∧
        0 ≤ q ∧ q ≤ 100 := by
    rcases hr with h | ⟨q, hq, h0, h100⟩
    · subst h
      exact ⟨50, rfl, by norm_num, by norm_num⟩
    · subst hq
      exact ⟨q, rfl, h0, h100⟩
  unfold kdStep
  rw [hkq, hdq, hrq]
  constructor
  · exact ⟨2/3 * kq + 1/3 * rq, rfl, by linarith, by linarith⟩
  · exact ⟨2/3 * dq + 1/3 * (2/3 * kq + 1/3 * rq), rfl, by linarith, by linarith⟩

theorem kdAux_inRange (rs : List PFloat) (p : PFloat × PFloat)
    (hp : p.1.inRange ∧ p.2.inRange)
    (hrs : ∀ r ∈ rs, r = PFloat.nan ∨ r.inRange) :
    ∀ q ∈ kdAux p rs, q.1.inRange ∧ q.2.inRange := by
  induction rs generalizing p with
  | nil =>
      intro q hq
      simp [kdAux] at hq
  | cons r rest ih =>
      intro q hq
      rw [kdAux] at hq
      have hstep := kdStep_inRange p r hp.1 hp.2 (hrs r (List.mem_cons_self r rest))
      rcases List.mem_cons.mp hq with h | h
      · subst h
        exact hstep
      · exact ih (kdStep p r) hstep
          (fun x hx => hrs x (List.mem_cons_of_mem r hx)) q h

theorem mem_rsvList (bars : List Bar) (r : PFloat) (hr : r ∈ rsvList bars) :
    ∃ k, k < bars.length ∧ r = rsvAt bars k := by
  unfold rsvList at hr
  obtain ⟨k, hk, he⟩ := List.mem_map.mp hr
  exact ⟨k, List.mem_range.mp hk, he.symm⟩

theorem kdPairs_inRange (bars : List Bar)
    (hrs : ∀ i, i < bars.length →
      rsvAt bars i = PFloat.nan ∨ (rsvAt bars i).inRange) :
    ∀ q ∈ kdPairs bars, q.1.inRange ∧ q.2.inRange := by
  have h50 : (PFloat.fin 50).inRange := ⟨50, rfl, by norm_num, by norm_num⟩
  intro q hq
  rw [kdPairs] at hq
  rcases List.mem_cons.mp hq with h | h
  · subst h
    exact ⟨h50, h50⟩
  · refine kdAux_inRange _ _ ⟨h50, h50⟩ ?_ q h
    intro r hr
    obtain ⟨k, hk, rfl⟩ := mem_rsvList bars r (List.mem_of_mem_drop hr)
    exact hrs k hk

theorem kList_getD_mem (bars : List Bar) (i : ℕ)
    (h : i < (kdPairs bars).length) :
    ∃ q ∈ kdPairs bars,
      (kList bars).getD i PFloat.nan = q.1 ∧
      (dList bars).getD i PFloat.nan = q.2 := by
  refine ⟨(kdPairs bars).getD i (PFloat.nan, PFloat.nan), ?_,
    kList_getD bars i h, dList_getD bars i h⟩
  rw [List.getD_eq_getElem _ _ h]
  exact List.getElem_mem h

/-- Nine bars with a degenerate range `low = high = 10` in every window
but a close of 20 that lies off that range. All OHLC values are finite and
positive, so this series is admitted by the data model. -/
def infBars : List Bar :=
  [⟨0, 10, 10, 10, 20, 0⟩, ⟨1, 10, 10, 10, 20, 0⟩, ⟨2, 10, 10, 10, 20, 0⟩,
   ⟨3, 10, 10, 10, 20, 0⟩, ⟨4, 10, 10, 10, 20, 0⟩, ⟨5, 10, 10, 10, 20, 0⟩,
   ⟨6, 10, 10, 10, 20, 0⟩, ⟨7, 10, 10, 10, 20, 0⟩, ⟨8, 10, 10, 10, 20, 0⟩]

/-- Nine flat bars: `open = high = low = close = 10`. -/
def flatBars : List Bar :=
  [⟨0, 10, 10, 10, 10, 0⟩, ⟨1, 10, 10, 10, 10, 0⟩, ⟨2, 10, 10, 10, 10, 0⟩,
   ⟨3, 10, 10, 10, 10, 0⟩, ⟨4, 10, 10, 10, 10, 0⟩, ⟨5, 10, 10, 10, 10, 0⟩,
   ⟨6, 10, 10, 10, 10, 0⟩, ⟨7, 10, 10, 10, 10, 0⟩, ⟨8, 10, 10, 10, 10, 0⟩]

instance decValidBars (bars : List Bar) : Decidable (ValidBars bars) :=
  List.decidableBAll _ bars

theorem kdStep_const50 (r : PFloat) (hr : r.isna = true) :
    kdStep (PFloat.fin 50, PFloat.fin 50) r =
      (PFloat.fin 50, PFloat.fin 50) := by
  unfold kdStep
  rw [if_pos hr]
  show (PFloat.fin (2/3 * 50 + 1/3 * 50),
    PFloat.fin (2/3 * 50 + 1/3 * (2/3 * 50 + 1/3 * 50))) = _
  have h1 : (2/3 * 50 + 1/3 * 50 : ℚ) = 50 := by norm_num
  rw [h1, h1]

/-- As long as every RSV consumed so far is NaN, the K/D chain stays at
the seed `(50, 50)`. -/
theorem kdPairs_const50 (bars : List Bar) (m : ℕ) (hm : m < bars.length)
    (hnan : ∀ j, 1 ≤ j → j ≤ m → rsvAt bars j = PFloat.nan) :
    (kdPairs bars).getD m (PFloat.nan, PFloat.nan) =
      (PFloat.fin 50, PFloat.fin 50) := by
  induction m with
  | zero => rfl
  | succ k ih =>
      rw [kdPairs_getD_succ bars (k + 1) (by omega) hm]
      rw [show k + 1 - 1 = k from rfl]
      rw [ih (by omega) (fun j hj1 hj2 => hnan j hj1 (by omega))]
      rw [hnan (k + 1) (by omega) (le_refl _)]
      exact kdStep_const50 PFloat.nan rfl

/-- C4 counterexample: on `infBars` the trailing window at index 8 has
zero range (`high_max = low_min = 10`), yet the RSV is +infinity — the
division by zero produces `inf`, which `pd.isna` does not catch — and K at
index 8 is +infinity, not a finite value. The claim fails as stated for
"every series containing a zero-range trailing window". -/
theorem zero_range_inf_counterexample :
    high_max infBars 8 = low_min infBars 8 ∧
    rsvAt infBars 8 = PFloat.posInf ∧
    (kList infBars).getD 8 PFloat.nan = PFloat.posInf ∧
    ((kList infBars).getD 8 PFloat.nan).isFinite = false := by
  have h1 : high_max infBars 8 = some 10 := by decide
  have h2 : low_min infBars 8 = some 10 := by decide
  have h3 : rsvAt infBars 8 = PFloat.posInf := by
    rw [rsvAt_eq infBars 8 10 10 h2 h1]
    have hc : (closes infBars).getD 8 0 = 20 := by decide
    rw [hc]
    unfold PFloat.divQ
    rw [if_pos (by norm_num : (10 : ℚ) - 10 = 0),
      if_neg (by norm_num : ¬ (20 : ℚ) - 10 = 0),
      if_pos (by norm_num : (0 : ℚ) < 20 - 10)]
    unfold PFloat.mulQ
    rw [if_pos (by norm_num : (0 : ℚ) < 100)]
  have h4 : (kdPairs infBars).getD 7 (PFloat.nan, PFloat.nan) =
      (PFloat.fin 50, PFloat.fin 50) :=
    kdPairs_const50 infBars 7 (by decide)
      (fun j hj1 hj2 => rsvAt_lt8 infBars j (by omega))
  have h5 : (kList infBars).getD 8 PFloat.nan = PFloat.posInf := by
    rw [kList_getD infBars 8 (by rw [kdPairs_length infBars (by decide)]; decide)]
    rw [kdPairs_getD_succ infBars 8 (by norm_num) (by decide)]
    rw [show (8 : ℕ) - 1 = 7 from rfl, h4, h3]
    unfold kdStep
    rw [if_neg (by decide : ¬ PFloat.posInf.isna = true)]
    show PFloat.add (PFloat.fin (2/3 * 50)) (PFloat.mulQ (1/3) PFloat.posInf) =
      PFloat.posInf
    unfold PFloat.mulQ
    rw [if_pos (by norm_num : (0 : ℚ) < 1/3)]
    rfl
  exact ⟨h1.trans h2.symm, h3, h5, by rw [h5]; rfl⟩

/-- Safety of the zero-range fallback: every zero-range window yields a
NaN RSV (treated as 50 downstream) and the K/D values are finite at every
index. -/
def ZeroRangeSafeProp (bars : List Bar) : Prop :=
  ∀ i, i < bars.length →
    (high_max bars i = low_min bars i → rsvAt bars i = PFloat.nan) ∧
    ((kList bars).getD i PFloat.nan).isFinite = true ∧
    ((dList bars).getD i PFloat.nan).isFinite = true

/-- C4 (amended): for every series whose bars satisfy
`low ≤ close ≤ high`, a zero-range trailing window gives an undefined
(NaN) RSV — treated as the neutral 50 in the K/D recursion — and K and D
are well-defined finite values at every index. (Without the
`low ≤ close ≤ high` restriction the claim is false: see the
counterexample, where the RSV of a zero-range window is infinite and K
becomes infinite.) -/
theorem zero_range_window_safe (bars : List Bar) (hv : ValidBars bars) :
    ZeroRangeSafeProp bars := by
  intro i hn
  have hne : bars ≠ [] := by
    intro h
    rw [h] at hn
    simp at hn
  have hpl : i < (kdPairs bars).length := by
    rw [kdPairs_length bars hne]
    exact hn
  obtain ⟨q, hqmem, hk, hd⟩ := kList_getD_mem bars i hpl
  have hq := kdPairs_inRange bars
    (fun j hj => (rsv_trichotomy bars hv j hj).2) q hqmem
  refine ⟨(rsv_trichotomy bars hv i hn).1, ?_, ?_⟩
  · obtain ⟨v, hv1, _, _⟩ := hq.1
    rw [hk, hv1]
    rfl
  · obtain ⟨v, hv1, _, _⟩ := hq.2
    rw [hd, hv1]
    rfl

/-- C4 witness: `zero_range_window_safe` instantiated on the flat series,
whose every window has zero range. -/
theorem zero_range_window_safe_witness :
    ValidBars flatBars ∧ ZeroRangeSafeProp flatBars :=
  ⟨by decide, zero_range_window_safe _ (by decide)⟩

/-- Boundedness of the stochastic output in `[0, 100]`. -/
def KdBoundedProp (bars : List Bar) : Prop :=
  ∀ i, i < bars.length →
    (∃ q, (computeIndicators bars).K.getD i PFloat.nan = PFloat.fin q ∧
      0 ≤ q ∧ q ≤ 100) ∧
    (∃ q, (computeIndicators bars).D.getD i PFloat.nan = PFloat.fin q ∧
      0 ≤ q ∧ q ≤ 100)

/-- C9: for every series whose bars satisfy `low ≤ close ≤ high`, the
computed K and D lie in the closed interval `[0, 100]` at every index:
the RSV, when defined, lies in `[0, 100]`, the seed is 50, and each
smoothing step is a convex combination. -/
theorem kd_bounded (bars : List Bar) (hv : ValidBars bars) :
    KdBoundedProp bars := by
  intro i hn
  have hne : bars ≠ [] := by
    intro h
    rw [h] at hn
    simp at hn
  have hpl : i < (kdPairs bars).length := by
    rw [kdPairs_length bars hne]
    exact hn
  obtain ⟨q, hqmem, hk, hd⟩ := kList_getD_mem bars i hpl
  have hq := kdPairs_inRange bars
    (fun j hj => (rsv_trichotomy bars hv j hj).2) q hqmem
  constructor
  · obtain ⟨v, hv1, h0, h100⟩ := hq.1
    refine ⟨v, ?_, h0, h100⟩
    show (kList bars).getD i PFloat.nan = PFloat.fin v
    rw [hk, hv1]
  · obtain ⟨v, hv1, h0, h100⟩ := hq.2
    refine ⟨v, ?_, h0, h100⟩
    show (dList bars).getD i PFloat.nan = PFloat.fin v
    rw [hd, hv1]

/-- C9 witness: `kd_bounded` instantiated on a concrete valid two-bar
series. -/
theorem kd_bounded_witness :
    ValidBars [⟨0, 10, 11, 9, 10, 3⟩, ⟨1, 10, 12, 9, 11, 4⟩] ∧
    KdBoundedProp [⟨0, 10, 11, 9, 10, 3⟩, ⟨1, 10, 12, 9, 11, 4⟩] :=
  ⟨by decide, kd_bounded _ (by decide)⟩

/-! ### Short series, single bars and prefix stability -/

/-- Constant K/D for series shorter than the 9-bar lookback. -/
def ShortSeriesProp (bars : List Bar) : Prop :=
  ∀ i, i < bars.length →
    rsvAt bars i = PFloat.nan ∧
    (kList bars).getD i PFloat.nan = PFloat.fin 50 ∧
    (dList bars).getD i PFloat.nan = PFloat.fin 50

/-- C10: for every series of fewer than 9 bars, the rolling 9-bar
minimum/maximum is undefined (NaN) at every index, every RSV falls back to
the neutral 50, and `K[i] = D[i] = 50` at every index — the KD lines are
constant for any series shorter than the lookback window. -/
theorem short_series_constant_kd (bars : List Bar)
    (hshort : bars.length < 9) : ShortSeriesProp bars := by
  intro i hn
  have h8 : i < 8 := by omega
  have hne : bars ≠ [] := by
    intro h
    rw [h] at hn
    simp at hn
  have hpl : i < (kdPairs bars).length := by
    rw [kdPairs_length bars hne]
    exact hn
  have hpair : (kdPairs bars).getD i (PFloat.nan, PFloat.nan) =
      (PFloat.fin 50, PFloat.fin 50) :=
    kdPairs_const50 bars i hn (fun j hj1 hj2 => rsvAt_lt8 bars j (by omega))
  refine ⟨rsvAt_lt8 bars i h8, ?_, ?_⟩
  · rw [kList_getD bars i hpl, hpair]
  · rw [dList_getD bars i hpl, hpair]

/-- C10 witness: `short_series_constant_kd` on a concrete three-bar
series. -/
theorem short_series_constant_kd_witness :
    ([⟨0, 9, 12, 8, 10, 2⟩, ⟨1, 10, 13, 9, 11, 2⟩,
      ⟨2, 11, 14, 10, 12, 2⟩] : List Bar).length < 9 ∧
    ShortSeriesProp [⟨0, 9, 12, 8, 10, 2⟩, ⟨1, 10, 13, 9, 11, 2⟩,
      ⟨2, 11, 14, 10, 12, 2⟩] :=
  ⟨by decide, short_series_constant_kd _ (by decide)⟩

/-- The degenerate values at index 0 of a single-bar series. -/
def SingleBarProp (bars : List Bar) : Prop :=
  (computeIndicators bars).K.getD 0 PFloat.nan = PFloat.fin 50 ∧
  (computeIndicators bars).D.getD 0 PFloat.nan = PFloat.fin 50 ∧
  (computeIndicators bars).MACD.getD 0 0 = 0 ∧
  (computeIndicators bars).Signal.getD 0 0 =
    (computeIndicators bars).MACD.getD 0 0 ∧
  (computeIndicators bars).Hist.getD 0 0 = 0

/-- C7: for every series of length exactly 1, `K[0] = 50`, `D[0] = 50`,
`macd[0] = 0`, `signal[0] = macd[0]` and `hist[0] = 0`. -/
theorem length_one_values (bars : List Bar) (h : bars.length = 1) :
    SingleBarProp bars := by
  obtain ⟨b, rfl⟩ : ∃ b, bars = [b] := by
    cases bars with
    | nil => simp at h
    | cons x xs =>
        cases xs with
        | nil => exact ⟨x, rfl⟩
        | cons y ys => simp at h
  refine ⟨rfl, rfl, ?_, ?_, ?_⟩
  · show (macdList [b]).getD 0 0 = 0
    simp [macdList, exp12, exp26, closes, ewm_mean, ewmAux]
  · show (ewm_mean (2/10) (macdList [b])).getD 0 0 = (macdList [b]).getD 0 0
    exact ewm_mean_getD_zero _ _
  · show (List.zipWith (· - ·) (macdList [b]) (signalList [b])).getD 0 0 = 0
    have h0 : (0 : ℕ) < (macdList [b]).length := by
      rw [macdList_length]
      norm_num
    have h1 : (0 : ℕ) < (signalList [b]).length := by
      rw [signalList_length]
      norm_num
    rw [getD_zipWith_sub _ _ 0 h0 h1]
    have hs : (signalList [b]).getD 0 0 = (macdList [b]).getD 0 0 :=
      ewm_mean_getD_zero _ _
    rw [hs]
    ring

/-- C7 witness: `length_one_values` on a concrete single-bar series. -/
theorem length_one_values_witness :
    ([⟨0, 10, 11, 9, 10, 5⟩] : List Bar).length = 1 ∧
    SingleBarProp [⟨0, 10, 11, 9, 10, 5⟩] :=
  ⟨rfl, length_one_values _ rfl⟩

/-- At index 0 every indicator value of a non-empty series is a fixed
constant: `macd[0] = signal[0] = hist[0] = 0` and `K[0] = D[0] = 50`. -/
theorem index0_constants (bars : List Bar) (hne : bars ≠ []) :
    (computeIndicators bars).MACD.getD 0 0 = 0 ∧
    (computeIndicators bars).Signal.getD 0 0 = 0 ∧
    (computeIndicators bars).Hist.getD 0 0 = 0 ∧
    (computeIndicators bars).K.getD 0 PFloat.nan = PFloat.fin 50 ∧
    (computeIndicators bars).D.getD 0 PFloat.nan = PFloat.fin 50 := by
  obtain ⟨b, bs, rfl⟩ : ∃ b bs, bars = b :: bs := by
    cases bars with
    | nil => exact absurd rfl hne
    | cons x xs => exact ⟨x, xs, rfl⟩
  have hmacd : (macdList (b :: bs)).getD 0 0 = 0 := by
    have h0 : (0 : ℕ) < (exp12 (b :: bs)).length := by
      rw [exp12_length]
      simp
    have h1 : (0 : ℕ) < (exp26 (b :: bs)).length := by
      rw [exp26_length]
      simp
    show (List.zipWith (· - ·) (exp12 (b :: bs)) (exp26 (b :: bs))).getD 0 0 = 0
    rw [getD_zipWith_sub _ _ 0 h0 h1]
    have he12 : (exp12 (b :: bs)).getD 0 0 = (closes (b :: bs)).getD 0 0 :=
      ewm_mean_getD_zero _ _
    have he26 : (exp26 (b :: bs)).getD 0 0 = (closes (b :: bs)).getD 0 0 :=
      ewm_mean_getD_zero _ _
    rw [he12, he26]
    ring
  have hsig : (signalList (b :: bs)).getD 0 0 = 0 := by
    have hz : (ewm_mean (2/10) (macdList (b :: bs))).getD 0 0 =
        (macdList (b :: bs)).getD 0 0 := ewm_mean_getD_zero _ _
    show (ewm_mean (2/10) (macdList (b :: bs))).getD 0 0 = 0
    rw [hz, hmacd]
  have hhist : (histList (b :: bs)).getD 0 0 = 0 := by
    have h0 : (0 : ℕ) < (macdList (b :: bs)).length := by
      rw [macdList_length]
      simp
    have h1 : (0 : ℕ) < (signalList (b :: bs)).length := by
      rw [signalList_length]
      simp
    show (List.zipWith (· - ·) (macdList (b :: bs))
      (signalList (b :: bs))).getD 0 0 = 0
    rw [getD_zipWith_sub _ _ 0 h0 h1, hmacd, hsig]
    ring
  exact ⟨hmacd, hsig, hhist, rfl, rfl⟩

/-- Index-0 prefix stability under appending one bar. -/
def PrefixStableProp (s : List Bar) (b : Bar) : Prop :=
  (computeIndicators (s ++ [b])).MACD.getD 0 0 =
    (computeIndicators s).MACD.getD 0 0 ∧
  (computeIndicators (s ++ [b])).Signal.getD 0 0 =
    (computeIndicators s).Signal.getD 0 0 ∧
  (computeIndicators (s ++ [b])).Hist.getD 0 0 =
    (computeIndicators s).Hist.getD 0 0 ∧
  (computeIndicators (s ++ [b])).K.getD 0 PFloat.nan =
    (computeIndicators s).K.getD 0 PFloat.nan ∧
  (computeIndicators (s ++ [b])).D.getD 0 PFloat.nan =
    (computeIndicators s).D.getD 0 PFloat.nan

/-- C8: for every non-empty series `s` and every appended bar `b`, all
indicator fields (macd, signal, hist, K, D) at index 0 of
`compute(s ++ [b])` equal those at index 0 of `compute(s)` — appending new
data never changes the values at the first index. -/
theorem prefix_stability_index0 (s : List Bar) (b : Bar) (hne : s ≠ []) :
    PrefixStableProp s b := by
  have h1 := index0_constants s hne
  have h2 := index0_constants (s ++ [b]) (by simp)
  exact ⟨by rw [h2.1, h1.1], by rw [h2.2.1, h1.2.1],
    by rw [h2.2.2.1, h1.2.2.1], by rw [h2.2.2.2.1, h1.2.2.2.1],
    by rw [h2.2.2.2.2, h1.2.2.2.2]⟩

/-- C8 witness: `prefix_stability_index0` on a concrete one-bar series and
appended bar. -/
theorem prefix_stability_index0_witness :
    ([⟨0, 10, 11, 9, 10, 1⟩] : List Bar) ≠ [] ∧
    PrefixStableProp [⟨0, 10, 11, 9, 10, 1⟩] ⟨1, 11, 12, 10, 11, 1⟩ :=
  ⟨by decide, prefix_stability_index0 _ _ (by decide)⟩

/-! ### Input handling -/

/-- C5 counterexample: a one-bar series whose close is 0 (non-positive) is
not rejected — `get_stock_data` returns a result instead of failing. The
code performs no OHLC validation at all. -/
theorem invalid_close_accepted :
    (⟨0, 1, 1, 1, 0, 0⟩ : Bar).Close = 0 ∧
    get_stock_data [⟨0, 1, 1, 1, 0, 0⟩] ≠ none := by
  refine ⟨rfl, ?_⟩
  unfold get_stock_data
  simp

/-- C5 (amended): `get_stock_data` signals failure — by returning `None`,
not by raising an error — exactly when the input series is empty; bars
with non-positive (or otherwise malformed) OHLC values are not validated
and produce a normal full result. -/
theorem none_iff_empty (bars : List Bar) :
    get_stock_data bars = none ↔ bars = [] := by
  unfold get_stock_data
  cases bars with
  | nil => simp
  | cons b bs => simp

/-- C6 counterexample: a series of two bars with identical timestamps is
silently accepted — `get_stock_data` returns a computed result rather than
rejecting the input. -/
theorem duplicate_ts_accepted :
    (⟨5, 10, 11, 9, 10, 1⟩ : Bar).Ts = (⟨5, 10, 12, 9, 11, 1⟩ : Bar).Ts ∧
    get_stock_data [⟨5, 10, 11, 9, 10, 1⟩, ⟨5, 10, 12, 9, 11, 1⟩] ≠ none := by
  refine ⟨rfl, ?_⟩
  unfold get_stock_data
  simp

/-- C6 (amended): `get_stock_data` never inspects timestamps; every
non-empty series — including one with out-of-order or duplicate
timestamps — is silently accepted and yields a computed result. -/
theorem nonempty_always_some (bars : List Bar) (hne : bars ≠ []) :
    (get_stock_data bars).isSome = true := by
  unfold get_stock_data
  cases bars with
  | nil => exact absurd rfl hne
  | cons b bs => rfl

/-- C6 witness: `nonempty_always_some` on a concrete series with duplicate
timestamps. -/
theorem nonempty_always_some_witness :
    ([⟨7, 10, 11, 9, 10, 1⟩, ⟨7, 9, 12, 8, 11, 1⟩] : List Bar) ≠ [] ∧
    (get_stock_data [⟨7, 10, 11, 9, 10, 1⟩, ⟨7, 9, 12, 8, 11, 1⟩]).isSome =
      true :=
  ⟨by decide, nonempty_always_some _ (by decide)⟩

end TwStock
